import Mathlib

/-!
Verification development for the bodylabs rigger core
(`joint_positions.py`, `factory.py`, `rig_assets.py`).

The FBX scene types used by the code are shallowly embedded:
`FbxVector4` translation data becomes `V3` (exact rationals stand in for
the doubles; the algorithms are exact field arithmetic), `FbxAMatrix`
(an affine transform: linear 3x3 block plus translation column) becomes
`Aff`, with multiplication, identity, `SetT`/`GetT` and `Inverse`
modelled by explicit formulas.  Stateful scene construction becomes
explicit recursion returning the records it creates plus the printed
diagnostics.
-/

namespace Rigger

/-- A 3-vector of coordinates (the x, y, z part of an `FbxVector4`). -/
@[ext] structure V3 where
  x : ℚ
  y : ℚ
  z : ℚ
  deriving DecidableEq, Repr

/-- A 3x3 matrix: the linear (rotation and scale) block of an `FbxAMatrix`. -/
@[ext] structure M3 where
  m00 : ℚ
  m01 : ℚ
  m02 : ℚ
  m10 : ℚ
  m11 : ℚ
  m12 : ℚ
  m20 : ℚ
  m21 : ℚ
  m22 : ℚ
  deriving DecidableEq, Repr

def zeroV3 : V3 := ⟨0, 0, 0⟩

def addV (a b : V3) : V3 := ⟨a.x + b.x, a.y + b.y, a.z + b.z⟩

def subV (a b : V3) : V3 := ⟨a.x - b.x, a.y - b.y, a.z - b.z⟩

def negV (a : V3) : V3 := ⟨-a.x, -a.y, -a.z⟩

/-- Componentwise product, as in `(v2 - v1) * np.array(relative_position)`. -/
def mulV (a b : V3) : V3 := ⟨a.x * b.x, a.y * b.y, a.z * b.z⟩

/-- Division of a vector by a scalar, as in `(left_arm_pos - neck_pos) / 3.`. -/
def divV (a : V3) (c : ℚ) : V3 := ⟨a.x / c, a.y / c, a.z / c⟩

/-- Componentwise minimum (one step of `np.min(pts, axis=0)`). -/
def minV (a b : V3) : V3 := ⟨min a.x b.x, min a.y b.y, min a.z b.z⟩

/-- Componentwise maximum (one step of `np.max(pts, axis=0)`). -/
def maxV (a b : V3) : V3 := ⟨max a.x b.x, max a.y b.y, max a.z b.z⟩

/-- Componentwise order on 3-vectors. -/
def leV (a b : V3) : Prop := a.x ≤ b.x ∧ a.y ≤ b.y ∧ a.z ≤ b.z

instance (a b : V3) : Decidable (leV a b) := by
  unfold leV; infer_instance

def one3 : M3 := ⟨1, 0, 0, 0, 1, 0, 0, 0, 1⟩

def mul3 (a b : M3) : M3 :=
  ⟨a.m00 * b.m00 + a.m01 * b.m10 + a.m02 * b.m20,
   a.m00 * b.m01 + a.m01 * b.m11 + a.m02 * b.m21,
   a.m00 * b.m02 + a.m01 * b.m12 + a.m02 * b.m22,
   a.m10 * b.m00 + a.m11 * b.m10 + a.m12 * b.m20,
   a.m10 * b.m01 + a.m11 * b.m11 + a.m12 * b.m21,
   a.m10 * b.m02 + a.m11 * b.m12 + a.m12 * b.m22,
   a.m20 * b.m00 + a.m21 * b.m10 + a.m22 * b.m20,
   a.m20 * b.m01 + a.m21 * b.m11 + a.m22 * b.m21,
   a.m20 * b.m02 + a.m21 * b.m12 + a.m22 * b.m22⟩

def mulVec3 (a : M3) (v : V3) : V3 :=
  ⟨a.m00 * v.x + a.m01 * v.y + a.m02 * v.z,
   a.m10 * v.x + a.m11 * v.y + a.m12 * v.z,
   a.m20 * v.x + a.m21 * v.y + a.m22 * v.z⟩

def det3 (a : M3) : ℚ :=
  a.m00 * (a.m11 * a.m22 - a.m12 * a.m21)
    - a.m01 * (a.m10 * a.m22 - a.m12 * a.m20)
    + a.m02 * (a.m10 * a.m21 - a.m11 * a.m20)

/-- Explicit adjugate-over-determinant inverse of a 3x3 matrix
(the linear block of `FbxAMatrix.Inverse`). -/
def inv3 (a : M3) : M3 :=
  let d := det3 a
  ⟨(a.m11 * a.m22 - a.m12 * a.m21) / d,
   (a.m02 * a.m21 - a.m01 * a.m22) / d,
   (a.m01 * a.m12 - a.m02 * a.m11) / d,
   (a.m12 * a.m20 - a.m10 * a.m22) / d,
   (a.m00 * a.m22 - a.m02 * a.m20) / d,
   (a.m02 * a.m10 - a.m00 * a.m12) / d,
   (a.m10 * a.m21 - a.m11 * a.m20) / d,
   (a.m01 * a.m20 - a.m00 * a.m21) / d,
   (a.m00 * a.m11 - a.m01 * a.m10) / d⟩

/-- An affine transform: the shallow embedding of `FbxAMatrix`
(linear block `lin`, translation column `t`, implicit bottom row 0 0 0 1). -/
@[ext] structure Aff where
  lin : M3
  t : V3
  deriving DecidableEq, Repr

/-- Affine product, the embedding of `FbxAMatrix` multiplication. -/
def mulAff (a b : Aff) : Aff := ⟨mul3 a.lin b.lin, addV (mulVec3 a.lin b.t) a.t⟩

def oneAff : Aff := ⟨one3, zeroV3⟩

/-- The embedding of `FbxAMatrix.Inverse` for an affine matrix. -/
def invAff (a : Aff) : Aff := ⟨inv3 a.lin, negV (mulVec3 (inv3 a.lin) a.t)⟩

/-- Identity matrix with its translation set, as built by
`SetIdentity()` followed by `SetT(v)`. -/
def transMat (v : V3) : Aff := ⟨one3, v⟩

/-- The embedding of `FbxAMatrix.GetT`: the translation component. -/
def getT (a : Aff) : V3 := a.t

/-- Local transform of a node with local translation `t` and a linear
local rotation and scale block `rs` (FBX composes `T * R * S` for a node
with default pivots; rotation and scale contribute no translation). -/
def localMat (t : V3) (rs : M3) : Aff := mulAff (transMat t) ⟨rs, zeroV3⟩

/-! Embedding of `joint_positions.py`.  Vertices become a `List V3`; numpy
fancy indexing that would raise `IndexError` on a bad index is modelled with
`Option`.  The resolved joint position map (a Python dict) is modelled as a
function `String → Option V3`; the `print` in the `except KeyError` clause is
modelled as a returned list of the missing key names. -/

/-- Componentwise minimum of `p :: ps`, modelling `np.min(pts, axis=0)`. -/
def vminL (p : V3) (ps : List V3) : V3 := ps.foldl minV p

/-- Componentwise maximum of `p :: ps`, modelling `np.max(pts, axis=0)`. -/
def vmaxL (p : V3) (ps : List V3) : V3 := ps.foldl maxV p

/-- Embedding of `calculate_joint_position`: gather the reference vertices
(`none` on an out-of-range index, where numpy raises), then either take the
componentwise extrema (more than two points) or the first and last point
(at most two points; `none` models the `IndexError` on an empty gather), and
blend `v1 + (v2 - v1) * relative_position`. -/
def calculate_joint_position (vertices : List V3) (reference_vertices : List Nat)
    (relative_position : V3 := ⟨1/2, 1/2, 1/2⟩) : Option V3 :=
  match reference_vertices.mapM (fun i => vertices.get? i) with
  | none => none
  | some pts =>
    if 2 < pts.length then
      match pts with
      | [] => none
      | p :: ps =>
        some (addV (vminL p ps)
          (mulV (subV (vmaxL p ps) (vminL p ps)) relative_position))
    else
      match pts.head?, pts.getLast? with
      | some v1, some v2 => some (addV v1 (mulV (subV v2 v1) relative_position))
      | _, _ => none

/-- Dict update `m[k] = v` on a map modelled as a function. -/
def updateJ (m : String → Option V3) (k : String) (v : V3) : String → Option V3 :=
  fun n => if n = k then some v else m n

/-- Embedding of the shoulder special case of `calculate_joint_positions`
(the `try`/`except KeyError` block): look up `Neck`, then `LeftArm`, assign
`LeftShoulder`, then look up `RightArm`, assign `RightShoulder`; the first
failing lookup aborts the rest of the block and reports the missing name. -/
def shoulder_special_case (m : String → Option V3) :
    (String → Option V3) × List String :=
  match m "Neck" with
  | none => (m, ["Neck"])
  | some neck_pos =>
    match m "LeftArm" with
    | none => (m, ["LeftArm"])
    | some left_arm_pos =>
      let m1 := updateJ m "LeftShoulder"
        (addV neck_pos (divV (subV left_arm_pos neck_pos) 3))
      match m1 "RightArm" with
      | none => (m1, ["RightArm"])
      | some right_arm_pos =>
        (updateJ m1 "RightShoulder"
          (addV neck_pos (divV (subV right_arm_pos neck_pos) 3)), [])

/-- Embedding of `calculate_joint_positions`: resolve every entry of the
joint position spec by the generic rule, then apply the shoulder special
case.  A spec entry is a joint name with its reference vertices and relative
position. -/
def calculate_joint_positions (vertices : List V3)
    (joint_position_spec : List (String × List Nat × V3)) :
    Option ((String → Option V3) × List String) := do
  let m ← joint_position_spec.foldlM
    (fun m e => do
      let p ← calculate_joint_position vertices e.2.1 e.2.2
      pure (updateJ m e.1 p))
    (fun _ => none)
  pure (shoulder_special_case m)

/-- Concrete resolved position map with `Neck` and `LeftArm` but no
`RightArm`, exercising the partially-applied shoulder special case. -/
def shoulderMapA : String → Option V3 :=
  fun n => if n = "Neck" then some ⟨0, 0, 0⟩
    else if n = "LeftArm" then some ⟨3, 3, 3⟩ else none

/-- Concrete resolved position map with all three shoulder inputs present. -/
def shoulderMapB : String → Option V3 :=
  fun n => if n = "Neck" then some ⟨0, 0, 0⟩
    else if n = "LeftArm" then some ⟨3, 3, 3⟩
    else if n = "RightArm" then some ⟨3, 0, 0⟩ else none

/-! Embedding of `RiggedModelFactory._set_node_translation` from
`factory.py`.  The code builds the identity matrix with its translation set
to the target location, reads the node and parent global transforms, wraps
the current local translation in an identity-with-translation matrix,
multiplies `parent_global.Inverse() * global_pos * current_global.Inverse()
* parent_global * current_local_translation`, and stores the translation
component of the product as the new local translation. -/

/-- Embedding of `_set_node_translation`: the new local translation the code
stores for a node, given the target world location, the evaluated global
transforms of the node and of its parent, and the current local
translation. -/
def set_node_translation (location : V3)
    (current_global_pos_mat parent_global_pos_mat : Aff)
    (current_local_translation : V3) : V3 :=
  getT (mulAff (mulAff (mulAff
    (mulAff (invAff parent_global_pos_mat) (transMat location))
    (invAff current_global_pos_mat)) parent_global_pos_mat)
    (transMat current_local_translation))

/-! Embedding of `RiggedModelFactory._extend_skeleton`.  The `JointTree` of
`rig_assets.py` (a name plus a list of child trees) is given as a mutual
inductive with an explicit forest so that structural mutual recursion and
induction are available.  A created `FbxNode` starts with the default
identity local transform; its evaluated global transform is the parent
global transform times its local transform.  The builder records, for each
created node, the parent global transform, the global transform evaluated
before the edit, and the final local translation and global transform; the
`print` for a missing position becomes a returned list of joint names. -/

mutual
inductive JointTree where
  | node : String → JointForest → JointTree
  deriving Repr
inductive JointForest where
  | nil : JointForest
  | cons : JointTree → JointForest → JointForest
  deriving Repr
end

/-- Name of the root joint of a tree, as the `name` attribute. -/
def JointTree.name : JointTree → String
  | .node n _ => n

/-- Record of one bone node created by the skeleton builder. -/
structure NodeRec where
  name : String
  parentGlobal : Aff
  preEditGlobal : Aff
  lclTranslation : V3
  globalAfter : Aff
  deriving DecidableEq, Repr

mutual

/-- Embedding of `_extend_skeleton`: create the bone node (identity local
transform), translate it to its target position when the resolved position
map has an entry for its name and otherwise report the name, then recurse
into the children with this node as parent. -/
def extendSkeleton (parent_global : Aff) (t : JointTree)
    (target_fbx_node_positions : String → Option V3) :
    List NodeRec × List String :=
  match t with
  | .node node_name children =>
    let preEdit := mulAff parent_global (localMat zeroV3 one3)
    match target_fbx_node_positions node_name with
    | some node_position =>
      let newT := set_node_translation node_position preEdit parent_global
        zeroV3
      let g := mulAff parent_global (localMat newT one3)
      let rest := extendSkeletonForest g children target_fbx_node_positions
      (⟨node_name, parent_global, preEdit, newT, g⟩ :: rest.1, rest.2)
    | none =>
      let rest := extendSkeletonForest preEdit children
        target_fbx_node_positions
      (⟨node_name, parent_global, preEdit, zeroV3, preEdit⟩ :: rest.1,
        node_name :: rest.2)

/-- The children loop of `_extend_skeleton`. -/
def extendSkeletonForest (parent_global : Aff) (f : JointForest)
    (target_fbx_node_positions : String → Option V3) :
    List NodeRec × List String :=
  match f with
  | .nil => ([], [])
  | .cons t rest =>
    let r1 := extendSkeleton parent_global t target_fbx_node_positions
    let r2 := extendSkeletonForest parent_global rest
      target_fbx_node_positions
    (r1.1 ++ r2.1, r1.2 ++ r2.2)

end

mutual

/-- Preorder list of joint names of a tree. -/
def treeNames : JointTree → List String
  | .node n children => n :: forestNames children

/-- Preorder list of joint names of a forest. -/
def forestNames : JointForest → List String
  | .nil => []
  | .cons t rest => treeNames t ++ forestNames rest

end

/-- Concrete one-node joint tree. -/
def jtSingle : JointTree := .node "A" .nil

/-- Node record produced for `jtSingle` under a map positioning `A` at
`(1, 2, 3)` below the identity root. -/
def recA : NodeRec :=
  ⟨"A", oneAff, mulAff oneAff (localMat zeroV3 one3),
    set_node_translation ⟨1, 2, 3⟩ (mulAff oneAff (localMat zeroV3 one3))
      oneAff zeroV3,
    mulAff oneAff (localMat
      (set_node_translation ⟨1, 2, 3⟩ (mulAff oneAff (localMat zeroV3 one3))
        oneAff zeroV3) one3)⟩

/-- Node record produced for `jtSingle` when no position is available. -/
def recMissingA : NodeRec :=
  ⟨"A", oneAff, mulAff oneAff (localMat zeroV3 one3), zeroV3,
    mulAff oneAff (localMat zeroV3 one3)⟩

/-! Embedding of `RiggedModelFactory._add_skin_and_bind_pose`.  The node
map becomes a list of name and evaluated-global-transform pairs, the
clusters dict a function to `Option ControlPointCluster`.  The function
records the created clusters (link name, control point influences from
`zip(indices, weights)`, link transform) and the bind pose entries (the
mesh node entry first, then one entry per clustered joint); it prints
nothing, so its diagnostics list is empty. -/

/-- The `ControlPointCluster` of `rig_assets.py`: parallel `indices` and
`weights` sequences. -/
structure ControlPointCluster where
  indices : List Nat
  weights : List ℚ
  deriving DecidableEq, Repr

/-- One `FbxCluster` created by the skin binder. -/
structure ClusterRec where
  linkName : String
  influences : List (Nat × ℚ)
  transformLink : Aff
  deriving DecidableEq, Repr

/-- One `(node, global transform)` snapshot added to the bind pose. -/
structure PoseEntry where
  nodeName : String
  matrix : Aff
  deriving DecidableEq, Repr

/-- Result of the skin binder: clusters added to the skin, bind pose
entries, and diagnostics (none are printed by this function). -/
structure SkinBindResult where
  clusters : List ClusterRec
  bindPose : List PoseEntry
  diagnostics : List String
  deriving DecidableEq, Repr

/-- The joint loop of `_add_skin_and_bind_pose`: skip a node with no
cluster entry, otherwise create the cluster with its zipped control point
influences and add the node's global transform to the bind pose. -/
def bindClusters (fbx_node_map : List (String × Aff))
    (clusters : String → Option ControlPointCluster) :
    List ClusterRec × List PoseEntry :=
  match fbx_node_map with
  | [] => ([], [])
  | (node_name, transform) :: rest =>
    let r := bindClusters rest clusters
    match clusters node_name with
    | none => r
    | some cluster_info =>
      (⟨node_name, cluster_info.indices.zip cluster_info.weights,
          transform⟩ :: r.1,
        ⟨node_name, transform⟩ :: r.2)

/-- Embedding of `_add_skin_and_bind_pose`: record the mesh node's global
transform in the bind pose, then run the joint loop. -/
def add_skin_and_bind_pose (fbx_node_map : List (String × Aff))
    (mesh_global : Aff)
    (clusters : String → Option ControlPointCluster) : SkinBindResult :=
  let r := bindClusters fbx_node_map clusters
  ⟨r.1, ⟨"BodyLabs_body", mesh_global⟩ :: r.2, []⟩

/-- C3 counterexample input: one skeleton joint, no cluster data. -/
def nodeMapFoo : List (String × Aff) := [("Foo", oneAff)]

/-- Cluster data for the bind pose witness: only joint `J` is clustered. -/
def clJ : String → Option ControlPointCluster :=
  fun n => if n = "J" then some ⟨[0], [1]⟩ else none

/-- Cluster data with mismatched parallel sequences: three indices, two
weights. -/
def clK : String → Option ControlPointCluster :=
  fun n => if n = "J" then some ⟨[0, 1, 2], [1, 1]⟩ else none

theorem mul3_one (a : M3) : mul3 a one3 = a := by
  cases a; simp [mul3, one3]

theorem one_mul3 (a : M3) : mul3 one3 a = a := by
  cases a; simp [mul3, one3]

theorem mul3_assoc (a b c : M3) : mul3 (mul3 a b) c = mul3 a (mul3 b c) := by
  cases a; cases b; cases c
  simp only [mul3, M3.mk.injEq]
  refine ⟨?_, ?_, ?_, ?_, ?_, ?_, ?_, ?_, ?_⟩ <;> ring

theorem mulVec3_one (v : V3) : mulVec3 one3 v = v := by
  cases v; simp [mulVec3, one3]

theorem mulVec3_zero (a : M3) : mulVec3 a zeroV3 = zeroV3 := by
  cases a; simp [mulVec3, zeroV3]

theorem mulVec3_mul3 (a b : M3) (v : V3) :
    mulVec3 (mul3 a b) v = mulVec3 a (mulVec3 b v) := by
  cases a; cases b; cases v
  simp only [mul3, mulVec3, V3.mk.injEq]
  refine ⟨?_, ?_, ?_⟩ <;> ring

theorem mulVec3_addV (a : M3) (u v : V3) :
    mulVec3 a (addV u v) = addV (mulVec3 a u) (mulVec3 a v) := by
  cases a; cases u; cases v
  simp only [mulVec3, addV, V3.mk.injEq]
  refine ⟨?_, ?_, ?_⟩ <;> ring

theorem mulVec3_negV (a : M3) (v : V3) :
    mulVec3 a (negV v) = negV (mulVec3 a v) := by
  cases a; cases v
  simp only [mulVec3, negV, V3.mk.injEq]
  refine ⟨?_, ?_, ?_⟩ <;> ring

theorem mul3_inv3 (a : M3) (h : det3 a ≠ 0) : mul3 a (inv3 a) = one3 := by
  cases a
  simp only [det3] at h
  simp only [mul3, inv3, one3, det3, M3.mk.injEq]
  refine ⟨?_, ?_, ?_, ?_, ?_, ?_, ?_, ?_, ?_⟩ <;> (field_simp; ring)

theorem inv3_mul3 (a : M3) (h : det3 a ≠ 0) : mul3 (inv3 a) a = one3 := by
  cases a
  simp only [det3] at h
  simp only [mul3, inv3, one3, det3, M3.mk.injEq]
  refine ⟨?_, ?_, ?_, ?_, ?_, ?_, ?_, ?_, ?_⟩ <;> (field_simp; ring)

theorem det3_mul3 (a b : M3) : det3 (mul3 a b) = det3 a * det3 b := by
  cases a; cases b
  simp only [det3, mul3]
  ring

theorem addV_assoc (u v w : V3) : addV (addV u v) w = addV u (addV v w) := by
  cases u; cases v; cases w
  simp only [addV, V3.mk.injEq]
  refine ⟨?_, ?_, ?_⟩ <;> ring

theorem addV_zero (v : V3) : addV v zeroV3 = v := by
  cases v; simp [addV, zeroV3]

theorem zero_addV (v : V3) : addV zeroV3 v = v := by
  cases v; simp [addV, zeroV3]

theorem addV_negV (v : V3) : addV v (negV v) = zeroV3 := by
  cases v
  simp only [addV, negV, zeroV3, V3.mk.injEq]
  refine ⟨?_, ?_, ?_⟩ <;> ring

theorem negV_addV (v : V3) : addV (negV v) v = zeroV3 := by
  cases v
  simp only [addV, negV, zeroV3, V3.mk.injEq]
  refine ⟨?_, ?_, ?_⟩ <;> ring

theorem mulAff_assoc (a b c : Aff) : mulAff (mulAff a b) c = mulAff a (mulAff b c) := by
  apply Aff.ext
  · simp only [mulAff, mul3_assoc]
  · simp only [mulAff, mulVec3_addV, mulVec3_mul3, addV_assoc]

theorem mulAff_one (a : Aff) : mulAff a oneAff = a := by
  apply Aff.ext
  · simp only [mulAff, oneAff, mul3_one]
  · simp only [mulAff, oneAff, mulVec3_zero, zero_addV]

theorem one_mulAff (a : Aff) : mulAff oneAff a = a := by
  apply Aff.ext
  · simp only [mulAff, oneAff, one_mul3]
  · simp only [mulAff, oneAff, mulVec3_one, addV_zero]

theorem invAff_mulAff (a : Aff) (h : det3 a.lin ≠ 0) :
    mulAff (invAff a) a = oneAff := by
  apply Aff.ext
  · simp only [invAff, mulAff, oneAff, inv3_mul3 a.lin h]
  · simp only [invAff, mulAff, oneAff, addV_negV]

theorem mulAff_invAff (a : Aff) (h : det3 a.lin ≠ 0) :
    mulAff a (invAff a) = oneAff := by
  apply Aff.ext
  · simp only [invAff, mulAff, oneAff, mul3_inv3 a.lin h]
  · simp only [invAff, mulAff, oneAff, mulVec3_negV, ← mulVec3_mul3,
      mul3_inv3 a.lin h, mulVec3_one, negV_addV]

theorem leV_refl (a : V3) : leV a a := ⟨le_refl _, le_refl _, le_refl _⟩

theorem leV_trans {a b c : V3} (h1 : leV a b) (h2 : leV b c) : leV a c :=
  ⟨le_trans h1.1 h2.1, le_trans h1.2.1 h2.2.1, le_trans h1.2.2 h2.2.2⟩

theorem minV_le_left (a b : V3) : leV (minV a b) a :=
  ⟨min_le_left _ _, min_le_left _ _, min_le_left _ _⟩

theorem le_maxV_left (a b : V3) : leV a (maxV a b) :=
  ⟨le_max_left _ _, le_max_left _ _, le_max_left _ _⟩

theorem vminL_le_init (ps : List V3) : ∀ p, leV (vminL p ps) p := by
  induction ps with
  | nil => intro p; exact leV_refl p
  | cons q qs ih =>
    intro p
    exact leV_trans (ih (minV p q)) (minV_le_left p q)

theorem init_le_vmaxL (ps : List V3) : ∀ p, leV p (vmaxL p ps) := by
  induction ps with
  | nil => intro p; exact leV_refl p
  | cons q qs ih =>
    intro p
    exact leV_trans (le_maxV_left p q) (ih (maxV p q))

theorem vminL_le_vmaxL (p : V3) (ps : List V3) : leV (vminL p ps) (vmaxL p ps) :=
  leV_trans (vminL_le_init ps p) (init_le_vmaxL ps p)

theorem blend_between {a b r : ℚ} (hab : a ≤ b) (h0 : 0 ≤ r) (h1 : r ≤ 1) :
    a ≤ a + (b - a) * r ∧ a + (b - a) * r ≤ b := by
  constructor <;> nlinarith

theorem blend_in_box {lo hi r : V3} (hb : leV lo hi) (h0 : leV zeroV3 r)
    (h1 : leV r ⟨1, 1, 1⟩) :
    leV lo (addV lo (mulV (subV hi lo) r)) ∧ leV (addV lo (mulV (subV hi lo) r)) hi := by
  obtain ⟨hbx, hby, hbz⟩ := hb
  obtain ⟨h0x, h0y, h0z⟩ := h0
  obtain ⟨h1x, h1y, h1z⟩ := h1
  have hx := blend_between hbx h0x h1x
  have hy := blend_between hby h0y h1y
  have hz := blend_between hbz h0z h1z
  exact ⟨⟨hx.1, hy.1, hz.1⟩, ⟨hx.2, hy.2, hz.2⟩⟩

theorem blendV_zero (lo hi : V3) : addV lo (mulV (subV hi lo) zeroV3) = lo := by
  cases lo; cases hi
  simp [addV, mulV, subV, zeroV3]

theorem blendV_one (lo hi : V3) : addV lo (mulV (subV hi lo) ⟨1, 1, 1⟩) = hi := by
  cases lo; cases hi
  simp only [addV, mulV, subV, V3.mk.injEq]
  refine ⟨?_, ?_, ?_⟩ <;> ring

/-- C5: for a reference-vertex list of length exactly one (with a valid
index), the resolved position is that vertex, whatever the relative
position. -/
theorem claim5_single_reference_vertex (vertices : List V3) (i : ℕ) (v : V3)
    (relative_position : V3) (h : vertices.get? i = some v) :
    calculate_joint_position vertices [i] relative_position = some v := by
  have hm : (List.mapM (fun j => vertices.get? j) [i]) = some [v] := by
    rw [List.mapM_cons, List.mapM_nil, h]
    rfl
  simp only [calculate_joint_position, hm, List.length_cons, List.length_nil,
    List.head?_cons, List.getLast?_singleton]
  norm_num
  cases v; cases relative_position
  simp [addV, mulV, subV]

/-- C5 witness: a concrete one-vertex joint resolves to that vertex. -/
theorem claim5_witness :
    calculate_joint_position [⟨5, 6, 7⟩] [0] ⟨1/4, 1/2, 3/4⟩ = some ⟨5, 6, 7⟩ :=
  claim5_single_reference_vertex [⟨5, 6, 7⟩] 0 ⟨5, 6, 7⟩ ⟨1/4, 1/2, 3/4⟩ (by decide)

/-- C4: with two gathered reference points the resolved position blends from
the first to the second stored point (order, not value); with more than two
it blends from the componentwise minimum to the componentwise maximum, equals
the minimum at relative position zero and the maximum at one, and, for a
relative position inside the unit cube, lies in the axis-aligned bounding box
of the gathered points. -/
theorem claim4_two_plus_reference_vertices (vertices : List V3) (ref : List Nat)
    (relative_position : V3) (pts : List V3)
    (hp : List.mapM (fun i => vertices.get? i) ref = some pts) :
    (∀ a b, pts = [a, b] →
      calculate_joint_position vertices ref relative_position =
        some (addV a (mulV (subV b a) relative_position))) ∧
    (∀ p ps, pts = p :: ps → 2 < pts.length →
      calculate_joint_position vertices ref relative_position =
        some (addV (vminL p ps)
          (mulV (subV (vmaxL p ps) (vminL p ps)) relative_position)) ∧
      calculate_joint_position vertices ref zeroV3 = some (vminL p ps) ∧
      calculate_joint_position vertices ref ⟨1, 1, 1⟩ = some (vmaxL p ps) ∧
      (leV zeroV3 relative_position → leV relative_position ⟨1, 1, 1⟩ →
        ∀ q, calculate_joint_position vertices ref relative_position = some q →
          leV (vminL p ps) q ∧ leV q (vmaxL p ps))) := by
  constructor
  · rintro a b rfl
    simp only [calculate_joint_position, hp, List.length_cons, List.length_nil,
      List.head?_cons]
    norm_num
  · rintro p ps rfl hlen
    have hmain : calculate_joint_position vertices ref relative_position =
        some (addV (vminL p ps)
          (mulV (subV (vmaxL p ps) (vminL p ps)) relative_position)) := by
      simp only [calculate_joint_position, hp, if_pos hlen]
    have hzero : calculate_joint_position vertices ref zeroV3 =
        some (vminL p ps) := by
      simp only [calculate_joint_position, hp, if_pos hlen, blendV_zero]
    have hone : calculate_joint_position vertices ref ⟨1, 1, 1⟩ =
        some (vmaxL p ps) := by
      simp only [calculate_joint_position, hp, if_pos hlen, blendV_one]
    refine ⟨hmain, hzero, hone, ?_⟩
    intro h0 h1 q hq
    rw [hmain, Option.some.injEq] at hq
    subst hq
    exact blend_in_box (vminL_le_vmaxL p ps) h0 h1

/-- C4 witness: three concrete reference vertices and the default relative
position give the midpoint of the componentwise extrema. -/
theorem claim4_witness :
    calculate_joint_position [⟨0, 0, 0⟩, ⟨1, 2, 3⟩, ⟨2, 1, 0⟩] [0, 1, 2]
      ⟨1/2, 1/2, 1/2⟩ = some ⟨1, 1, 3/2⟩ := by
  have h := (claim4_two_plus_reference_vertices
    [⟨0, 0, 0⟩, ⟨1, 2, 3⟩, ⟨2, 1, 0⟩] [0, 1, 2] ⟨1/2, 1/2, 1/2⟩
    [⟨0, 0, 0⟩, ⟨1, 2, 3⟩, ⟨2, 1, 0⟩] (by decide)).2
    ⟨0, 0, 0⟩ [⟨1, 2, 3⟩, ⟨2, 1, 0⟩] rfl (by decide)
  rw [h.1]
  simp only [vminL, vmaxL, List.foldl_cons, List.foldl_nil, minV, maxV,
    addV, mulV, subV, Option.some.injEq, V3.mk.injEq]
  norm_num [min_def, max_def]

theorem shoulder_step_missing_right (m : String → Option V3) (nv lv : V3)
    (h1 : m "Neck" = some nv) (h2 : m "LeftArm" = some lv)
    (h3 : m "RightArm" = none) :
    shoulder_special_case m =
      (updateJ m "LeftShoulder" (addV nv (divV (subV lv nv) 3)),
        ["RightArm"]) := by
  have hra : updateJ m "LeftShoulder" (addV nv (divV (subV lv nv) 3))
      "RightArm" = none := by
    rw [updateJ, if_neg (by decide)]
    exact h3
  simp only [shoulder_special_case, h1, h2, hra]

/-- C2 counterexample: with `RightArm` absent (and `Neck`, `LeftArm` present)
the shoulder step is not skipped as a whole: `LeftShoulder` is still added
before the failing `RightArm` lookup aborts the block. -/
theorem claim2_counterexample :
    shoulderMapA "RightArm" = none ∧
    shoulderMapA "LeftShoulder" = none ∧
    (shoulder_special_case shoulderMapA).1 "LeftShoulder" = some ⟨1, 1, 1⟩ ∧
    (shoulder_special_case shoulderMapA).2 = ["RightArm"] := by
  have h := shoulder_step_missing_right shoulderMapA ⟨0, 0, 0⟩ ⟨3, 3, 3⟩
    (by decide) (by decide) (by decide)
  refine ⟨by decide, by decide, ?_, ?_⟩
  · rw [h]
    show updateJ shoulderMapA "LeftShoulder" _ "LeftShoulder" = _
    rw [updateJ, if_pos rfl, Option.some.injEq]
    simp only [addV, divV, subV, V3.mk.injEq]
    norm_num
  · rw [h]

/-- C2 (amended): a missing `Neck` or `LeftArm` aborts the shoulder step
before anything is written and reports the missing name; a missing
`RightArm` is reported only after `LeftShoulder` has already been assigned,
so only `RightShoulder` is left unset.  Processing continues non-fatally in
all three cases. -/
theorem claim2_amended_shoulder_abort (m : String → Option V3) :
    (m "Neck" = none → shoulder_special_case m = (m, ["Neck"])) ∧
    (∀ nv, m "Neck" = some nv → m "LeftArm" = none →
      shoulder_special_case m = (m, ["LeftArm"])) ∧
    (∀ nv lv, m "Neck" = some nv → m "LeftArm" = some lv →
      m "RightArm" = none →
      shoulder_special_case m =
        (updateJ m "LeftShoulder" (addV nv (divV (subV lv nv) 3)),
          ["RightArm"])) := by
  refine ⟨?_, ?_, ?_⟩
  · intro h
    simp only [shoulder_special_case, h]
  · intro nv h1 h2
    simp only [shoulder_special_case, h1, h2]
  · intro nv lv h1 h2 h3
    exact shoulder_step_missing_right m nv lv h1 h2 h3

/-- C2 witness: on a map with no entries at all, the shoulder step returns
the map unchanged and reports the missing `Neck`. -/
theorem claim2_amended_witness :
    shoulder_special_case (fun _ => none) = (fun _ => none, ["Neck"]) :=
  (claim2_amended_shoulder_abort (fun _ => none)).1 rfl

/-- C6: with `Neck`, `LeftArm` and `RightArm` all present, both shoulders
are written (overwriting any previous entries) as one third of the way from
the neck towards the respective arm, and no missing name is reported. -/
theorem claim6_shoulders_set (m : String → Option V3) (nv lv rv : V3)
    (h1 : m "Neck" = some nv) (h2 : m "LeftArm" = some lv)
    (h3 : m "RightArm" = some rv) :
    (shoulder_special_case m).1 "LeftShoulder" =
      some (addV nv (divV (subV lv nv) 3)) ∧
    (shoulder_special_case m).1 "RightShoulder" =
      some (addV nv (divV (subV rv nv) 3)) ∧
    (shoulder_special_case m).2 = [] := by
  have hra : updateJ m "LeftShoulder" (addV nv (divV (subV lv nv) 3))
      "RightArm" = some rv := by
    rw [updateJ, if_neg (by decide)]
    exact h3
  simp only [shoulder_special_case, h1, h2, hra]
  refine ⟨?_, ?_, by trivial⟩
  · rw [updateJ, if_neg (by decide), updateJ, if_pos rfl]
  · rw [updateJ, if_pos rfl]

/-- C6 witness: `Neck=(0,0,0)` and `LeftArm=(3,3,3)` give
`LeftShoulder=(1,1,1)`. -/
theorem claim6_witness :
    (shoulder_special_case shoulderMapB).1 "LeftShoulder" = some ⟨1, 1, 1⟩ := by
  have h := claim6_shoulders_set shoulderMapB ⟨0, 0, 0⟩ ⟨3, 3, 3⟩ ⟨3, 0, 0⟩
    (by decide) (by decide) (by decide)
  rw [h.1, Option.some.injEq]
  simp only [addV, divV, subV, V3.mk.injEq]
  norm_num

theorem localMat_eq (t : V3) (rs : M3) : localMat t rs = ⟨rs, t⟩ := by
  apply Aff.ext
  · simp only [localMat, mulAff, transMat, one_mul3]
  · simp only [localMat, mulAff, transMat, mulVec3_zero, zero_addV]

theorem negV_zero : negV zeroV3 = zeroV3 := by
  simp [negV, zeroV3]

theorem addV_negV_cancel (a b : V3) : addV (addV a (negV b)) b = a := by
  cases a; cases b
  simp only [addV, negV, V3.mk.injEq]
  refine ⟨?_, ?_, ?_⟩ <;> ring

theorem det3_one : det3 one3 = 1 := by
  norm_num [det3, one3]

theorem invAff_mulAff_eq (a b : Aff) (ha : det3 a.lin ≠ 0)
    (hb : det3 b.lin ≠ 0) :
    invAff (mulAff a b) = mulAff (invAff b) (invAff a) := by
  have hdet : det3 (mulAff a b).lin ≠ 0 := by
    simp only [mulAff, det3_mul3]
    exact mul_ne_zero ha hb
  have h1 : mulAff (invAff (mulAff a b)) (mulAff a b) = oneAff :=
    invAff_mulAff _ hdet
  have h2 : mulAff (mulAff a b) (mulAff (invAff b) (invAff a)) = oneAff := by
    rw [mulAff_assoc, ← mulAff_assoc b, mulAff_invAff b hb, one_mulAff,
      mulAff_invAff a ha]
  calc invAff (mulAff a b)
      = mulAff (invAff (mulAff a b)) oneAff := (mulAff_one _).symm
    _ = mulAff (invAff (mulAff a b))
        (mulAff (mulAff a b) (mulAff (invAff b) (invAff a))) := by rw [h2]
    _ = mulAff (mulAff (invAff (mulAff a b)) (mulAff a b))
        (mulAff (invAff b) (invAff a)) := (mulAff_assoc _ _ _).symm
    _ = mulAff oneAff (mulAff (invAff b) (invAff a)) := by rw [h1]
    _ = mulAff (invAff b) (invAff a) := one_mulAff _

/-- C8: set a node to a target global position with
`set_node_translation`, then re-evaluate its global transform by the same
composition (parent global times local transform): the translation
component equals the target exactly, for any invertible parent global
transform (hence any parent chain depth) and any invertible local rotation
and scale block of the node. -/
theorem claim8_set_translation_round_trip (parent_global : Aff) (rs : M3)
    (t target : V3) (hp : det3 parent_global.lin ≠ 0)
    (hrs : det3 rs ≠ 0) :
    getT (mulAff parent_global (localMat
      (set_node_translation target (mulAff parent_global (localMat t rs))
        parent_global t) rs)) = target := by
  have hTclin : det3 (transMat t).lin ≠ 0 := by
    show det3 one3 ≠ 0
    rw [det3_one]
    norm_num
  have hRSa : det3 ((⟨rs, zeroV3⟩ : Aff)).lin ≠ 0 := hrs
  have hloc : det3 (localMat t rs).lin ≠ 0 := by
    show det3 (mulAff (transMat t) ⟨rs, zeroV3⟩).lin ≠ 0
    simp only [mulAff, det3_mul3, transMat]
    rw [det3_one]
    simpa using hrs
  have hGinv : invAff (mulAff parent_global (localMat t rs)) =
      mulAff (mulAff (invAff (⟨rs, zeroV3⟩ : Aff)) (invAff (transMat t)))
        (invAff parent_global) := by
    rw [invAff_mulAff_eq parent_global (localMat t rs) hp hloc]
    rw [show localMat t rs = mulAff (transMat t) (⟨rs, zeroV3⟩ : Aff) from rfl]
    rw [invAff_mulAff_eq (transMat t) (⟨rs, zeroV3⟩ : Aff) hTclin hRSa]
  have hX : mulAff (mulAff (mulAff
      (mulAff (invAff parent_global) (transMat target))
      (invAff (mulAff parent_global (localMat t rs)))) parent_global)
      (transMat t)
      = mulAff (invAff parent_global)
        (mulAff (transMat target) (invAff (⟨rs, zeroV3⟩ : Aff))) := by
    rw [hGinv]
    simp only [mulAff_assoc]
    rw [← mulAff_assoc (invAff parent_global) parent_global (transMat t)]
    rw [invAff_mulAff parent_global hp, one_mulAff]
    rw [invAff_mulAff (transMat t) hTclin, mulAff_one]
  have hRSainv : invAff ((⟨rs, zeroV3⟩ : Aff)) = ⟨inv3 rs, zeroV3⟩ := by
    apply Aff.ext
    · rfl
    · simp only [invAff, mulVec3_zero, negV_zero]
  simp only [set_node_translation, hX, hRSainv]
  rw [show mulAff (transMat target) (⟨inv3 rs, zeroV3⟩ : Aff) =
    localMat target (inv3 rs) from rfl, localMat_eq target (inv3 rs)]
  simp only [localMat_eq, mulAff, invAff, getT, mulVec3_addV, mulVec3_negV,
    ← mulVec3_mul3, mul3_inv3 parent_global.lin hp, mulVec3_one]
  exact addV_negV_cancel target parent_global.t

/-- C8 witness: at the identity parent and identity rotation and scale, the
round trip places the node at the concrete target. -/
theorem claim8_witness :
    getT (mulAff oneAff (localMat
      (set_node_translation ⟨1, 2, 3⟩ (mulAff oneAff (localMat zeroV3 one3))
        oneAff zeroV3) one3)) = ⟨1, 2, 3⟩ :=
  claim8_set_translation_round_trip oneAff one3 zeroV3 ⟨1, 2, 3⟩
    (by norm_num [oneAff, det3_one]) (by norm_num [det3_one])

mutual

theorem extendSkeleton_translation (pg : Aff) (t : JointTree)
    (pos : String → Option V3) :
    ∀ r ∈ (extendSkeleton pg t pos).1, ∀ p, pos r.name = some p →
      r.lclTranslation =
        set_node_translation p r.preEditGlobal r.parentGlobal zeroV3 := by
  cases t with
  | node node_name children =>
    intro r hr p hp
    cases hpos : pos node_name with
    | some q =>
      simp only [extendSkeleton, hpos, List.mem_cons] at hr
      rcases hr with hr | hr
      · subst hr
        simp only at hp ⊢
        rw [hp] at hpos
        cases hpos
        rfl
      · exact extendSkeletonForest_translation _ children pos r hr p hp
    | none =>
      simp only [extendSkeleton, hpos, List.mem_cons] at hr
      rcases hr with hr | hr
      · subst hr
        simp only at hp
        rw [hp] at hpos
        cases hpos
      · exact extendSkeletonForest_translation _ children pos r hr p hp

theorem extendSkeletonForest_translation (pg : Aff) (f : JointForest)
    (pos : String → Option V3) :
    ∀ r ∈ (extendSkeletonForest pg f pos).1, ∀ p, pos r.name = some p →
      r.lclTranslation =
        set_node_translation p r.preEditGlobal r.parentGlobal zeroV3 := by
  cases f with
  | nil => intro r hr; simp [extendSkeletonForest] at hr
  | cons t rest =>
    intro r hr p hp
    simp only [extendSkeletonForest, List.mem_append] at hr
    rcases hr with hr | hr
    · exact extendSkeleton_translation pg t pos r hr p hp
    · exact extendSkeletonForest_translation pg rest pos r hr p hp

end

mutual

theorem extendSkeleton_names (pg : Aff) (t : JointTree)
    (pos : String → Option V3) :
    (extendSkeleton pg t pos).1.map NodeRec.name = treeNames t := by
  cases t with
  | node node_name children =>
    cases hpos : pos node_name with
    | some q =>
      simp only [extendSkeleton, hpos, treeNames, List.map_cons,
        extendSkeletonForest_names]
    | none =>
      simp only [extendSkeleton, hpos, treeNames, List.map_cons,
        extendSkeletonForest_names]

theorem extendSkeletonForest_names (pg : Aff) (f : JointForest)
    (pos : String → Option V3) :
    (extendSkeletonForest pg f pos).1.map NodeRec.name = forestNames f := by
  cases f with
  | nil => rfl
  | cons t rest =>
    simp only [extendSkeletonForest, forestNames, List.map_append,
      extendSkeleton_names, extendSkeletonForest_names]

end

mutual

theorem extendSkeleton_missing (pg : Aff) (t : JointTree)
    (pos : String → Option V3) :
    ∀ r ∈ (extendSkeleton pg t pos).1, pos r.name = none →
      r.lclTranslation = zeroV3 ∧ r.name ∈ (extendSkeleton pg t pos).2 := by
  cases t with
  | node node_name children =>
    intro r hr hp
    cases hpos : pos node_name with
    | some q =>
      simp only [extendSkeleton, hpos, List.mem_cons] at hr ⊢
      rcases hr with hr | hr
      · subst hr
        simp only at hp
        rw [hp] at hpos
        cases hpos
      · exact extendSkeletonForest_missing _ children pos r hr hp
    | none =>
      simp only [extendSkeleton, hpos, List.mem_cons] at hr ⊢
      rcases hr with hr | hr
      · subst hr
        exact ⟨rfl, Or.inl rfl⟩
      · have h := extendSkeletonForest_missing _ children pos r hr hp
        exact ⟨h.1, Or.inr h.2⟩

theorem extendSkeletonForest_missing (pg : Aff) (f : JointForest)
    (pos : String → Option V3) :
    ∀ r ∈ (extendSkeletonForest pg f pos).1, pos r.name = none →
      r.lclTranslation = zeroV3 ∧
        r.name ∈ (extendSkeletonForest pg f pos).2 := by
  cases f with
  | nil => intro r hr; simp [extendSkeletonForest] at hr
  | cons t rest =>
    intro r hr hp
    simp only [extendSkeletonForest, List.mem_append] at hr ⊢
    rcases hr with hr | hr
    · have h := extendSkeleton_missing pg t pos r hr hp
      exact ⟨h.1, Or.inl h.2⟩
    · have h := extendSkeletonForest_missing pg rest pos r hr hp
      exact ⟨h.1, Or.inr h.2⟩

end

/-- C1: every node the skeleton builder processes that has an entry in the
resolved position map gets as its new local translation the translation
component of `inverse(parent_global) * desired_global *
inverse(current_global) * parent_global * current_local_translation`,
where the desired global transform is the identity with its translation set
to the target position, the current global transform is the one evaluated
before the edit, and the current local translation of the freshly created
node is zero. -/
theorem claim1_builder_local_translation (pg : Aff) (t : JointTree)
    (pos : String → Option V3) (r : NodeRec)
    (hr : r ∈ (extendSkeleton pg t pos).1) (p : V3)
    (hp : pos r.name = some p) :
    r.lclTranslation = getT (mulAff (mulAff (mulAff
      (mulAff (invAff r.parentGlobal) (transMat p))
      (invAff r.preEditGlobal)) r.parentGlobal) (transMat zeroV3)) :=
  extendSkeleton_translation pg t pos r hr p hp

/-- C9: every tree node is created as a bone (the created node names are
exactly the tree names, in preorder, whether or not positions are present),
and a node whose name has no entry in the resolved position map keeps the
default zero local translation and has its name reported as a non-fatal
diagnostic. -/
theorem claim9_missing_position_tolerated (pg : Aff) (t : JointTree)
    (pos : String → Option V3) :
    (extendSkeleton pg t pos).1.map NodeRec.name = treeNames t ∧
    (∀ r ∈ (extendSkeleton pg t pos).1, pos r.name = none →
      r.lclTranslation = zeroV3 ∧ localMat r.lclTranslation one3 = oneAff ∧
        r.name ∈ (extendSkeleton pg t pos).2) := by
  refine ⟨extendSkeleton_names pg t pos, ?_⟩
  intro r hr hp
  have h := extendSkeleton_missing pg t pos r hr hp
  refine ⟨h.1, ?_, h.2⟩
  rw [h.1, localMat_eq]
  rfl

/-- C1 witness: the single node of `jtSingle`, positioned at `(1, 2, 3)`,
stores the solved local translation. -/
theorem claim1_witness :
    recA.lclTranslation = getT (mulAff (mulAff (mulAff
      (mulAff (invAff recA.parentGlobal) (transMat ⟨1, 2, 3⟩))
      (invAff recA.preEditGlobal)) recA.parentGlobal) (transMat zeroV3)) :=
  claim1_builder_local_translation oneAff jtSingle
    (fun _ => some ⟨1, 2, 3⟩) recA (List.mem_singleton.mpr rfl) ⟨1, 2, 3⟩ rfl

/-- C9 witness: with an empty position map the single bone of `jtSingle` is
still created, keeps the zero local translation, and its name is reported. -/
theorem claim9_witness :
    (extendSkeleton oneAff jtSingle (fun _ => none)).1.map NodeRec.name =
      treeNames jtSingle ∧
    recMissingA.lclTranslation = zeroV3 ∧
    "A" ∈ (extendSkeleton oneAff jtSingle (fun _ => none)).2 := by
  have h := claim9_missing_position_tolerated oneAff jtSingle (fun _ => none)
  have hm := h.2 recMissingA (List.mem_singleton.mpr rfl) rfl
  exact ⟨h.1, hm.1, hm.2.2⟩

theorem bindClusters_linkNames (fbx_node_map : List (String × Aff))
    (cl : String → Option ControlPointCluster) :
    (bindClusters fbx_node_map cl).1.map ClusterRec.linkName =
      (fbx_node_map.map Prod.fst).filter (fun n => (cl n).isSome) := by
  induction fbx_node_map with
  | nil => rfl
  | cons e rest ih =>
    obtain ⟨n, g⟩ := e
    cases hc : cl n with
    | none => simp [bindClusters, hc, ih, List.filter_cons]
    | some c => simp [bindClusters, hc, ih, List.filter_cons]

theorem bindClusters_poseNames (fbx_node_map : List (String × Aff))
    (cl : String → Option ControlPointCluster) :
    (bindClusters fbx_node_map cl).2.map PoseEntry.nodeName =
      (fbx_node_map.map Prod.fst).filter (fun n => (cl n).isSome) := by
  induction fbx_node_map with
  | nil => rfl
  | cons e rest ih =>
    obtain ⟨n, g⟩ := e
    cases hc : cl n with
    | none => simp [bindClusters, hc, ih, List.filter_cons]
    | some c => simp [bindClusters, hc, ih, List.filter_cons]

theorem bindClusters_pose_mem (fbx_node_map : List (String × Aff))
    (cl : String → Option ControlPointCluster) :
    ∀ e ∈ (bindClusters fbx_node_map cl).2, (e.nodeName, e.matrix) ∈
      fbx_node_map := by
  induction fbx_node_map with
  | nil => intro e he; simp [bindClusters] at he
  | cons a rest ih =>
    obtain ⟨n, g⟩ := a
    intro e he
    cases hc : cl n with
    | none =>
      simp only [bindClusters, hc] at he
      exact List.mem_cons_of_mem _ (ih e he)
    | some c =>
      simp only [bindClusters, hc, List.mem_cons] at he
      rcases he with he | he
      · subst he
        exact List.mem_cons_self _ _
      · exact List.mem_cons_of_mem _ (ih e he)

theorem bindClusters_cluster_mem (fbx_node_map : List (String × Aff))
    (cl : String → Option ControlPointCluster) :
    ∀ r ∈ (bindClusters fbx_node_map cl).1, ∀ c, cl r.linkName = some c →
      r.influences = c.indices.zip c.weights := by
  induction fbx_node_map with
  | nil => intro r hr; simp [bindClusters] at hr
  | cons a rest ih =>
    obtain ⟨n, g⟩ := a
    intro r hr c hc
    cases hcn : cl n with
    | none =>
      simp only [bindClusters, hcn] at hr
      exact ih r hr c hc
    | some c0 =>
      simp only [bindClusters, hcn, List.mem_cons] at hr
      rcases hr with hr | hr
      · subst hr
        simp only at hc
        rw [hc] at hcn
        cases hcn
        rfl
      · exact ih r hr c hc

/-- C3 counterexample: a joint of the skeleton node map with no cluster
entry is absent from the bind pose, so the bind pose does not contain an
entry for every joint of the built skeleton. -/
theorem claim3_counterexample :
    "Foo" ∈ nodeMapFoo.map Prod.fst ∧
    "Foo" ∉ (add_skin_and_bind_pose nodeMapFoo oneAff
      (fun _ => none)).bindPose.map PoseEntry.nodeName := by
  constructor
  · simp [nodeMapFoo]
  · decide

/-- C3 (amended): the bind pose holds the mesh node entry followed by one
entry per joint that has a cluster entry (in node map order), and every
bind pose entry snapshots the global transform the node had at bind time:
the mesh entry carries the mesh global transform and every other entry
carries the node map transform of its joint. -/
theorem claim3_amended_bind_pose (fbx_node_map : List (String × Aff))
    (mesh_global : Aff) (cl : String → Option ControlPointCluster) :
    (add_skin_and_bind_pose fbx_node_map mesh_global cl).bindPose.map
        PoseEntry.nodeName =
      "BodyLabs_body" ::
        (fbx_node_map.map Prod.fst).filter (fun n => (cl n).isSome) ∧
    (∀ e ∈ (add_skin_and_bind_pose fbx_node_map mesh_global cl).bindPose,
      (e.nodeName = "BodyLabs_body" ∧ e.matrix = mesh_global) ∨
        (e.nodeName, e.matrix) ∈ fbx_node_map) := by
  constructor
  · show (⟨"BodyLabs_body", mesh_global⟩ ::
        (bindClusters fbx_node_map cl).2).map PoseEntry.nodeName = _
    rw [List.map_cons, bindClusters_poseNames]
  · intro e he
    rcases List.mem_cons.mp he with he | he
    · subst he
      exact Or.inl ⟨rfl, rfl⟩
    · exact Or.inr (bindClusters_pose_mem fbx_node_map cl e he)

/-- C3 witness: with one clustered joint `J`, the bind pose names are the
mesh node followed by `J`, and the `J` pose entry snapshots the node map
transform. -/
theorem claim3_amended_witness :
    (add_skin_and_bind_pose [("J", oneAff)] oneAff clJ).bindPose.map
      PoseEntry.nodeName = ["BodyLabs_body", "J"] ∧
    ((⟨"J", oneAff⟩ : PoseEntry).nodeName,
      (⟨"J", oneAff⟩ : PoseEntry).matrix) ∈ [("J", oneAff)] := by
  have h := claim3_amended_bind_pose [("J", oneAff)] oneAff clJ
  constructor
  · rw [h.1]
    decide
  · exact (h.2 ⟨"J", oneAff⟩ (by decide)).resolve_left (by decide)

/-- C7: under distinct joint names, the skin binder creates exactly one
cluster for each joint name present in both the skeleton node map and the
clusters mapping and none for any other name (a clustered name absent from
the node map yields zero bindings), and it emits no diagnostic. -/
theorem claim7_cluster_iff_in_both (fbx_node_map : List (String × Aff))
    (mesh_global : Aff) (cl : String → Option ControlPointCluster)
    (hnd : (fbx_node_map.map Prod.fst).Nodup) (n : String) :
    ((add_skin_and_bind_pose fbx_node_map mesh_global cl).clusters.map
        ClusterRec.linkName).count n =
      (if n ∈ fbx_node_map.map Prod.fst ∧ (cl n).isSome then 1 else 0) ∧
    (add_skin_and_bind_pose fbx_node_map mesh_global cl).diagnostics = [] := by
  refine ⟨?_, rfl⟩
  show ((bindClusters fbx_node_map cl).1.map ClusterRec.linkName).count n = _
  rw [bindClusters_linkNames]
  by_cases hm : n ∈ fbx_node_map.map Prod.fst
  · by_cases hs : (cl n).isSome
    · rw [if_pos ⟨hm, hs⟩]
      exact List.count_eq_one_of_mem (hnd.filter _)
        (List.mem_filter.mpr ⟨hm, by simpa using hs⟩)
    · rw [if_neg (fun hc => hs hc.2)]
      refine List.count_eq_zero.mpr (fun hc => ?_)
      exact hs (by simpa using (List.mem_filter.mp hc).2)
  · rw [if_neg (fun hc => hm hc.1)]
    refine List.count_eq_zero.mpr (fun hc => ?_)
    exact hm (List.mem_filter.mp hc).1

/-- C7 witness: with one joint `J` clustered by `clJ`, exactly one cluster
link named `J` is created. -/
theorem claim7_witness :
    ((add_skin_and_bind_pose [("J", oneAff)] oneAff clJ).clusters.map
      ClusterRec.linkName).count "J" = 1 := by
  have h := (claim7_cluster_iff_in_both [("J", oneAff)] oneAff clJ
    (by decide) "J").1
  rw [h]
  decide

/-- C10: every cluster the skin binder creates registers as control point
influences exactly the zip of the cluster's parallel `indices` and
`weights` sequences, so the influence count is the minimum of the two
lengths and any excess entries of the longer sequence are dropped with no
diagnostic. -/
theorem claim10_influences_zip (fbx_node_map : List (String × Aff))
    (mesh_global : Aff) (cl : String → Option ControlPointCluster)
    (r : ClusterRec)
    (hr : r ∈ (add_skin_and_bind_pose fbx_node_map mesh_global cl).clusters)
    (c : ControlPointCluster) (hc : cl r.linkName = some c) :
    r.influences = c.indices.zip c.weights ∧
    r.influences.length = min c.indices.length c.weights.length ∧
    (add_skin_and_bind_pose fbx_node_map mesh_global cl).diagnostics = [] := by
  have hz := bindClusters_cluster_mem fbx_node_map cl r hr c hc
  exact ⟨hz, by rw [hz, List.length_zip], rfl⟩

/-- C10 witness: with three indices and two weights, the created cluster
registers two influences. -/
theorem claim10_witness :
    (⟨"J", [(0, 1), (1, 1)], oneAff⟩ : ClusterRec).influences =
      List.zip [0, 1, 2] ([1, 1] : List ℚ) ∧
    (⟨"J", [(0, 1), (1, 1)], oneAff⟩ : ClusterRec).influences.length =
      min ([0, 1, 2] : List Nat).length ([1, 1] : List ℚ).length ∧
    (add_skin_and_bind_pose [("J", oneAff)] oneAff clK).diagnostics = [] :=
  claim10_influences_zip [("J", oneAff)] oneAff clK
    ⟨"J", [(0, 1), (1, 1)], oneAff⟩ (by decide) ⟨[0, 1, 2], [1, 1]⟩
    (by decide)

end Rigger
